import Mathlib

/-!
Shallow embedding of the `weakset` crate (src/lib.rs and src/rcset.rs).

`src/lib.rs` implements `WeakSet<T>`: a growable slot array
(`Vec<WeakSetSlot<T>>` plus a `first_free` hint) behind `Rc<RefCell<..>>`,
with reference-counted handles (`WeakSetEntry`).  We model the shared
interior-mutable state (`WeakSetInner`) as a pure value, and the set of live
handles as an explicit multiset of slot indices carried alongside it in a
`World`.  Machine integers (`usize`) are modelled as `Nat`: refcounts and
indices in the source are only ever incremented from small values and the
source never exercises wrap-around.

`src/rcset.rs` implements `RcSet<T>`: a `HashMap<*const T, Weak<T>>` behind
`Rc<RefCell<..>>`, with `Item` handles that own a strong `Rc<T>` reference.
Addresses are modelled as `Nat` identifiers, fresh per insertion (the model
assumes the allocator never reuses an address while the table still mentions
it; address reuse is a memory-layout phenomenon outside the embedding).
`Rc` strong counts are not stored but derived: the strong count of an
address is the number of live `Item`s plus the number of live iteration
handles (plain `Rc<T>` clones yielded by `RcSet::iter`) for that address.
-/

/-- Mirrors `enum WeakSetSlot<T> { Empty, Used(T, usize) }` from src/lib.rs. -/
inductive WeakSetSlot (T : Type) where
  | Empty : WeakSetSlot T
  | Used : T → Nat → WeakSetSlot T
deriving DecidableEq

/-- Mirrors `struct WeakSetInner<T> { slots: Vec<WeakSetSlot<T>>, first_free: usize }`. -/
structure WeakSetInner (T : Type) where
  slots : List (WeakSetSlot T)
  first_free : Nat
deriving DecidableEq

/-- The world: the shared `WeakSetInner` state plus the multiset of slot
indices of all currently live `WeakSetEntry` handles (each handle stores a
clone of the set and its `index`; only the index matters to the model). -/
structure WSWorld (T : Type) where
  inner : WeakSetInner T
  handles : List Nat
deriving DecidableEq

/-- The pattern `WeakSetSlot::Empty => true, _ => false` used by the scan
inside `WeakSet::insert`. -/
def isEmptySlot {T : Type} : WeakSetSlot T → Bool
  | WeakSetSlot.Empty => true
  | WeakSetSlot.Used _ _ => false

/-- The refcount stored in a slot (`0` for `Empty`). -/
def refcountOf {T : Type} : WeakSetSlot T → Nat
  | WeakSetSlot.Empty => 0
  | WeakSetSlot.Used _ rc => rc

/-- The value stored in a slot, if any. -/
def valueOf {T : Type} : WeakSetSlot T → Option T
  | WeakSetSlot.Empty => none
  | WeakSetSlot.Used v _ => some v

/-- Slot `i` of the world (out-of-range reads give `Empty`; the source
indexes with `slots[index]`, which panics out of range, but every in-model
access is in range). -/
def slotAt {T : Type} (w : WSWorld T) (i : Nat) : WeakSetSlot T :=
  w.inner.slots.getD i WeakSetSlot.Empty

/-- Helper for `scanFree`: position of the first `Empty` slot in `l`, with
`i` the absolute index of `l`'s head. -/
def scanIdx {T : Type} : List (WeakSetSlot T) → Nat → Option Nat
  | [], _ => none
  | s :: rest, i => if isEmptySlot s then some i else scanIdx rest (i + 1)

/-- Mirrors the scan in `WeakSet::insert`:
`slots.iter().skip(first_free).position(Empty).map(off + first_free)`,
i.e. the least absolute index `≥ start` holding an `Empty` slot, or `none`
when there is none before the end of the array. -/
def scanFree {T : Type} (slots : List (WeakSetSlot T)) (start : Nat) : Option Nat :=
  scanIdx (slots.drop start) start

namespace WeakSet

/-- Mirrors `WeakSet::new()`: empty slot vector, `first_free = 0`, and no
live handles. -/
def new (T : Type) : WSWorld T :=
  { inner := { slots := [], first_free := 0 }, handles := [] }

/-- Mirrors `WeakSet::insert`: scan from `first_free` for an `Empty` slot;
if none is found push a fresh `Empty` slot and use the last index; set
`first_free` to the chosen index plus one; overwrite the chosen slot with
`Used(val, 1)`; return the new handle's index. -/
def insert {T : Type} (w : WSWorld T) (val : T) : WSWorld T × Nat :=
  match scanFree w.inner.slots w.inner.first_free with
  | some i =>
      ({ inner := { slots := w.inner.slots.set i (WeakSetSlot.Used val 1),
                    first_free := i + 1 },
         handles := i :: w.handles }, i)
  | none =>
      ({ inner := { slots := (w.inner.slots ++ [WeakSetSlot.Empty]).set
                      w.inner.slots.length (WeakSetSlot.Used val 1),
                    first_free := w.inner.slots.length + 1 },
         handles := w.inner.slots.length :: w.handles }, w.inner.slots.length)

/-- Mirrors `WeakSet::make_entry`: `None` on an `Empty` slot, otherwise bump
the refcount and produce a new live handle at `index`.  (`Clone for
WeakSetEntry` is `make_entry(index).unwrap()`; each iteration visit is
`make_entry(idx)`.) -/
def make_entry {T : Type} (w : WSWorld T) (index : Nat) : Option Nat × WSWorld T :=
  match w.inner.slots.getD index WeakSetSlot.Empty with
  | WeakSetSlot.Empty => (none, w)
  | WeakSetSlot.Used v rc =>
      (some index,
       { inner := { slots := w.inner.slots.set index (WeakSetSlot.Used v (rc + 1)),
                    first_free := w.inner.first_free },
         handles := index :: w.handles })

/-- Mirrors `WeakSet::drop_entry` on the inner state: decrement the slot's
refcount; when it reaches zero set the slot to `Empty` (destroying the
value) and rewind `first_free` if the freed index precedes it.  The source
hits `unreachable!()` on an `Empty` slot; the model returns the state
unchanged there (no in-model call ever reaches that branch). -/
def drop_entry {T : Type} (inner : WeakSetInner T) (index : Nat) : WeakSetInner T :=
  match inner.slots.getD index WeakSetSlot.Empty with
  | WeakSetSlot.Used v rc =>
      if rc - 1 = 0 then
        { slots := inner.slots.set index WeakSetSlot.Empty,
          first_free := if index < inner.first_free then index else inner.first_free }
      else
        { slots := inner.slots.set index (WeakSetSlot.Used v (rc - 1)),
          first_free := inner.first_free }
  | WeakSetSlot.Empty => inner

/-- Mirrors `Drop for WeakSetEntry`: `drop_entry(self.index)` on the shared
state, and the handle itself ceases to exist (one occurrence of its index is
removed from the live-handle multiset). -/
def releaseEntry {T : Type} (w : WSWorld T) (index : Nat) : WSWorld T :=
  { inner := drop_entry w.inner index, handles := w.handles.erase index }

end WeakSet

/-- Mirrors `WeakSetInner::slot`: `None` for `Empty`, `Some(&val)` for
`Used`.  `WeakSetEntry::borrow` is `Ref::map(inner.borrow(), slot(index).unwrap())`. -/
def WeakSetInner.slot {T : Type} (inner : WeakSetInner T) (index : Nat) : Option T :=
  match inner.slots.getD index WeakSetSlot.Empty with
  | WeakSetSlot.Empty => none
  | WeakSetSlot.Used v _ => some v

/-- Mirrors `WeakSetInner::slot_mut`: same discrimination as `slot`, giving
the mutable view.  `WeakSetEntry::borrow_mut` unwraps it. -/
def WeakSetInner.slot_mut {T : Type} (inner : WeakSetInner T) (index : Nat) : Option T :=
  match inner.slots.getD index WeakSetSlot.Empty with
  | WeakSetSlot.Empty => none
  | WeakSetSlot.Used v _ => some v

namespace WeakSet

/-- One pass of `WeakSet::iter`'s underlying loop: starting at `idx` with
`fuel` indices left to visit, `filter_map(make_entry(idx))`, threading the
shared state (each visit bumps the visited slot's refcount).  Returns the
yielded handle indices in order and the final state. -/
def iterGo {T : Type} : Nat → WSWorld T → Nat → List Nat × WSWorld T
  | 0, w, _ => ([], w)
  | fuel + 1, w, idx =>
      match make_entry w idx with
      | (some hdl, w') =>
          let r := iterGo fuel w' (idx + 1)
          (hdl :: r.1, r.2)
      | (none, w') => iterGo fuel w' (idx + 1)

/-- A full, uninterrupted run of `WeakSet::iter`: `max_idx` is captured once
(`self.inner.borrow().slots.len()`), then indices `0 .. max_idx` are
visited (`fuel = max_idx - idx` counts the remaining indices). -/
def iterRun {T : Type} (w : WSWorld T) : List Nat × WSWorld T :=
  iterGo w.inner.slots.length w 0

/-- Worlds reachable from `WeakSet::new()` by any sequence of `insert`,
handle `clone` (which is `make_entry` at a live handle's index), and handle
release (`Drop for WeakSetEntry`). -/
inductive Reachable {T : Type} : WSWorld T → Prop where
  | init : Reachable (new T)
  | insert_step {w : WSWorld T} (v : T) :
      Reachable w → Reachable (insert w v).1
  | clone_step {w : WSWorld T} {i : Nat} :
      Reachable w → i ∈ w.handles → Reachable (make_entry w i).2
  | release_step {w : WSWorld T} {i : Nat} :
      Reachable w → i ∈ w.handles → Reachable (releaseEntry w i)

/-- The refcount invariant: every live handle's index is in range, each
slot's stored refcount equals the number of live handles at that index, and
an `Occupied` (`Used`) slot never has zero live handles (hence never a zero
refcount). -/
def Inv {T : Type} (w : WSWorld T) : Prop :=
  (∀ h ∈ w.handles, h < w.inner.slots.length) ∧
  (∀ i < w.inner.slots.length, refcountOf (slotAt w i) = w.handles.count i) ∧
  (∀ i < w.inner.slots.length, isEmptySlot (slotAt w i) = false → 0 < w.handles.count i)

/-- The free-hint invariant: every slot strictly below `first_free` is
`Used`, and `first_free` never exceeds the slot-array length. -/
def FreeInv {T : Type} (w : WSWorld T) : Prop :=
  w.inner.first_free ≤ w.inner.slots.length ∧
  ∀ i < w.inner.first_free, isEmptySlot (slotAt w i) = false

end WeakSet

/-- The world for `RcSet<T>` (src/rcset.rs).  `values` is the arena of all
values ever inserted; the address of a value is its insertion index (fresh
per insertion, never reused while relevant).  `table` is the key set of the
`HashMap<*const T, Weak<T>>` (each key maps to a weak reference to its
value).  `items` is the multiset of addresses owned by live `Item`s, `rcs`
the multiset of addresses owned by live plain `Rc<T>` clones yielded by
`RcSet::iter`.  An `Rc`'s strong count is derived: live `Item`s plus live
iteration references for the address. -/
structure RcWorld (T : Type) where
  values : List T
  table : List Nat
  items : List Nat
  rcs : List Nat
deriving DecidableEq

/-- `Rc::strong_count` for the value at address `a`: every live strong
reference is either held by an `Item` or by an iteration-yielded `Rc`. -/
def strongCount {T : Type} (w : RcWorld T) (a : Nat) : Nat :=
  w.items.count a + w.rcs.count a

/-- Observable events inside `RcSet::drop_item`: the value at an address is
destroyed (its last strong reference released), or the table entry for an
address is removed. -/
inductive RcEvent where
  | destroy : Nat → RcEvent
  | remove : Nat → RcEvent
deriving DecidableEq

namespace RcSet

/-- Mirrors `RcSet::new()`: empty map, no live references. -/
def new (T : Type) : RcWorld T :=
  { values := [], table := [], items := [], rcs := [] }

/-- Mirrors `RcSet::insert`: wrap the value in a fresh `Rc` (fresh address
`a`), record a weak reference under key `a`, and return an `Item` owning the
strong reference.  Returns the new item's address. -/
def insert {T : Type} (w : RcWorld T) (v : T) : RcWorld T × Nat :=
  ({ values := w.values ++ [v], table := w.values.length :: w.table,
     items := w.values.length :: w.items, rcs := w.rcs }, w.values.length)

/-- Mirrors `#[derive(Clone)] for Item`: duplicates the strong `Rc`
reference (strong count up by one); the table is untouched. -/
def cloneItem {T : Type} (w : RcWorld T) (a : Nat) : RcWorld T :=
  { values := w.values, table := w.table, items := a :: w.items, rcs := w.rcs }

/-- Mirrors `RcSet::drop_item` (called from `Drop for Item` with the item's
own `Rc`): reads the current strong count; when it is at most 1 the code
first drops the `Rc` (`drop(Rc::from_raw(ptr))`), which releases the last
strong reference and destroys the value, and only then removes the map
entry — the returned event list records that order.  When other strong
references remain, the `Rc` is simply dropped (count down by one) and the
map is untouched. -/
def drop_item {T : Type} (w : RcWorld T) (a : Nat) : RcWorld T × List RcEvent :=
  if strongCount w a ≤ 1 then
    ({ values := w.values, table := w.table.erase a,
       items := w.items.erase a, rcs := w.rcs },
     [RcEvent.destroy a, RcEvent.remove a])
  else
    ({ values := w.values, table := w.table, items := w.items.erase a, rcs := w.rcs },
     [])

/-- Dropping a plain `Rc<T>` yielded by `RcSet::iter`: the standard library
decrements the strong count (destroying the value when it reaches zero) and
never consults the `RcSet` table. -/
def releaseRc {T : Type} (w : RcWorld T) (a : Nat) : RcWorld T :=
  { values := w.values, table := w.table, items := w.items, rcs := w.rcs.erase a }

/-- The loop inside `Iterator for Iter`: walk the map's values (the weak
references, here their addresses, in table order), `Weak::upgrade` each
(succeeds exactly when the strong count is still positive, and then yields a
new strong `Rc` reference), and skip expired entries. -/
def iterYieldGo {T : Type} : RcWorld T → List Nat → List Nat × RcWorld T
  | w, [] => ([], w)
  | w, a :: rest =>
      if 0 < strongCount w a then
        let w' : RcWorld T :=
          { values := w.values, table := w.table, items := w.items, rcs := a :: w.rcs }
        let r := iterYieldGo w' rest
        (a :: r.1, r.2)
      else iterYieldGo w rest

/-- A full run of `RcSet::iter`: snapshot the map's entries at call time,
upgrade each in turn. -/
def iterRc {T : Type} (w : RcWorld T) : List Nat × RcWorld T :=
  iterYieldGo w w.table

/-- Worlds reachable through the whole `RcSet` interface: `insert`, `Item`
clone, `Item` release (`drop_item`), iteration, and release of
iteration-yielded `Rc`s. -/
inductive RcReach {T : Type} : RcWorld T → Prop where
  | init : RcReach (new T)
  | insert_step {w : RcWorld T} (v : T) : RcReach w → RcReach (insert w v).1
  | clone_step {w : RcWorld T} {a : Nat} :
      RcReach w → a ∈ w.items → RcReach (cloneItem w a)
  | drop_step {w : RcWorld T} {a : Nat} :
      RcReach w → a ∈ w.items → RcReach (drop_item w a).1
  | iterate_step {w : RcWorld T} : RcReach w → RcReach (iterRc w).2
  | rc_drop_step {w : RcWorld T} {a : Nat} :
      RcReach w → a ∈ w.rcs → RcReach (releaseRc w a)

/-- Worlds reachable through `insert`, `Item` clone and `Item` release only
(no iteration-yielded references). -/
inductive RcReachItems {T : Type} : RcWorld T → Prop where
  | init : RcReachItems (new T)
  | insert_step {w : RcWorld T} (v : T) : RcReachItems w → RcReachItems (insert w v).1
  | clone_step {w : RcWorld T} {a : Nat} :
      RcReachItems w → a ∈ w.items → RcReachItems (cloneItem w a)
  | drop_step {w : RcWorld T} {a : Nat} :
      RcReachItems w → a ∈ w.items → RcReachItems (drop_item w a).1

end RcSet

namespace WeakSet

/-- The semantic postcondition of `WeakSet::insert` (claim C6), for the
state `w` it runs on: writing `(w', h) = insert w v`, the chosen index `h`
lies at or after the hint, every slot from the hint up to `h` was occupied
(the scan takes the first `Empty` slot), either `h` was an existing `Empty`
slot (array length kept) or the array grew by exactly one appended slot,
slot `h` now holds `Used(v, 1)`, the hint advanced to `h + 1`, and the
returned handle is a new live handle at index `h`. -/
def InsertSpec {T : Type} (w : WSWorld T) (v : T) : Prop :=
  w.inner.first_free ≤ (insert w v).2 ∧
  (∀ j < (insert w v).2, w.inner.first_free ≤ j → isEmptySlot (slotAt w j) = false) ∧
  ((insert w v).2 < w.inner.slots.length →
     slotAt w (insert w v).2 = WeakSetSlot.Empty ∧
     (insert w v).1.inner.slots.length = w.inner.slots.length) ∧
  ((insert w v).2 = w.inner.slots.length →
     (insert w v).1.inner.slots.length = w.inner.slots.length + 1) ∧
  ((insert w v).2 ≤ w.inner.slots.length) ∧
  slotAt (insert w v).1 (insert w v).2 = WeakSetSlot.Used v 1 ∧
  (insert w v).1.inner.first_free = (insert w v).2 + 1 ∧
  (insert w v).1.handles = (insert w v).2 :: w.handles

/-- A state of an in-flight `WeakSet::iter`: the shared world, the loop
cursor `idx`, and the handles yielded so far recorded as
(slot index, value seen) pairs. -/
structure IterSt (T : Type) where
  w : WSWorld T
  cursor : Nat
  yields : List (Nat × T)
deriving DecidableEq

/-- One step during an in-flight iteration whose captured bound is `max`
(`max_idx`, read once when `iter()` was called).  A visit performs
`make_entry(cursor)`: on a `Used` slot it yields a handle (bumping the
refcount), on an `Empty` slot it yields nothing.  The iterator holds its
`RefCell` borrow only transiently inside each visit (`iter()` drops the
borrow used for `max_idx` before returning), so between visits other
operations on the shared `inner` can run: any live handle may be released
(`relAllowed = true`), and an insertion may be performed through a clone
of the set (`insAllowed = true`) — `insert` takes `&mut self`, but
`Clone for WeakSet` is public and a clone shares the same `inner`, so the
exclusive borrow of one `WeakSet` value does not exclude inserts through
another, which can recycle a freed slot below `max`. -/
inductive IterStep {T : Type} (insAllowed relAllowed : Bool) (max : Nat) :
    IterSt T → IterSt T → Prop where
  | visit_used {st : IterSt T} {v : T} {rc : Nat}
      (hc : st.cursor < max) (hs : slotAt st.w st.cursor = WeakSetSlot.Used v rc) :
      IterStep insAllowed relAllowed max st
        { w := (make_entry st.w st.cursor).2, cursor := st.cursor + 1,
          yields := st.yields ++ [(st.cursor, v)] }
  | visit_empty {st : IterSt T}
      (hc : st.cursor < max) (hs : slotAt st.w st.cursor = WeakSetSlot.Empty) :
      IterStep insAllowed relAllowed max st
        { w := st.w, cursor := st.cursor + 1, yields := st.yields }
  | release {st : IterSt T} {i : Nat}
      (hb : relAllowed = true) (hi : i ∈ st.w.handles) :
      IterStep insAllowed relAllowed max st
        { w := releaseEntry st.w i, cursor := st.cursor, yields := st.yields }
  | insert_clone {st : IterSt T} (v : T) (hb : insAllowed = true) :
      IterStep insAllowed relAllowed max st
        { w := (insert st.w v).1, cursor := st.cursor, yields := st.yields }

/-- Iteration states reachable from calling `iter()` on world `w0`: the
bound `max` is `w0`'s slot count, captured once at call time. -/
inductive IterReach {T : Type} (insAllowed relAllowed : Bool) (w0 : WSWorld T) :
    IterSt T → Prop where
  | start : IterReach insAllowed relAllowed w0 { w := w0, cursor := 0, yields := [] }
  | step {st st' : IterSt T} : IterReach insAllowed relAllowed w0 st →
      IterStep insAllowed relAllowed w0.inner.slots.length st st' →
      IterReach insAllowed relAllowed w0 st'

end WeakSet

/-- The world at which claim C7's snapshot guarantee breaks: insert the
value 1 (slot 0), insert 2 (slot 1), release the first handle — slot 0 is
`Empty` and `first_free` is rewound to 0.  Calling `iter()` here captures
`max_idx = 2`. -/
def iterBugW0 : WSWorld Nat :=
  WeakSet.releaseEntry (WeakSet.insert (WeakSet.insert (WeakSet.new Nat) 1).1 2).1 0

/-- The iteration state after, mid-iteration, a clone of the set inserts
the value 3 (recycling slot 0, below the captured bound `max_idx = 2`) and
the iterator then visits index 0: the yielded list contains `(0, 3)`. -/
def iterBugSt : WeakSet.IterSt Nat :=
  { w := (WeakSet.make_entry (WeakSet.insert iterBugW0 3).1 0).2, cursor := 1,
    yields := [(0, 3)] }

/-- The number of `Used` slots of a world. -/
def countUsedSlots {T : Type} (w : WSWorld T) : Nat :=
  w.inner.slots.countP (fun s => !isEmptySlot s)

/-- Mirrors `Debug for WeakSetSlot`: `"empty"` for `Empty` and
`"{:?}({})"` (value then refcount) for `Used`. -/
def debugSlot {T : Type} (fmtv : T → String) : WeakSetSlot T → String
  | WeakSetSlot.Empty => "empty"
  | WeakSetSlot.Used v rc => fmtv v ++ "(" ++ toString rc ++ ")"

/-- Mirrors `Debug for WeakSet`: the impl takes `inner.borrow()` (a shared,
read-only borrow), renders every slot directly from the store
(`f.debug_set().entries(inner.slots.iter())`), and never calls
`make_entry`/`iter`; the world after rendering is returned alongside the
output to state the frame property. -/
def debugFmt {T : Type} (fmtv : T → String) (w : WSWorld T) : String × WSWorld T :=
  (String.intercalate ", " (w.inner.slots.map (debugSlot fmtv)), w)

/-- Mirrors `#[derive(Debug)] for RcSet`: renders the map (keys and weak
references) through a shared borrow, mutating nothing. -/
def rcDebugFmt {T : Type} (w : RcWorld T) : String × RcWorld T :=
  (String.intercalate ", " (w.table.map toString), w)

/-- The invariant maintained by the `RcSet` interface when every strong
reference is an `Item` (no iteration-yielded `Rc`s): the table keys are
distinct in-range addresses, and an address is tabled exactly while some
live `Item` holds it. -/
def RcItemsInv {T : Type} (w : RcWorld T) : Prop :=
  w.table.Nodup ∧ (∀ a ∈ w.table, a < w.values.length) ∧
  (∀ a ∈ w.items, a < w.values.length) ∧ w.rcs = [] ∧
  (∀ a, a ∈ w.table ↔ 0 < w.items.count a)

/-- The concrete run refuting claim C5 as stated: insert one value, run
`iter()` (yielding one plain `Rc`), drop the `Item` (two strong references
are live, so the entry stays), then drop the iteration `Rc` (the plain `Rc`
drop destroys the value without consulting the table). -/
def rcC5World : RcWorld Nat :=
  RcSet.releaseRc
    (RcSet.drop_item (RcSet.iterRc (RcSet.insert (RcSet.new Nat) 5).1).2 0).1 0

example : (RcSet.insert (RcSet.new Nat) 5).2 = 0 := by decide
example : (RcSet.iterRc (RcSet.insert (RcSet.new Nat) 5).1).1 = [0] := by decide
example :
    (RcSet.drop_item (RcSet.insert (RcSet.new Nat) 5).1 0).2 =
      [RcEvent.destroy 0, RcEvent.remove 0] := by decide
example :
    (RcSet.drop_item (RcSet.insert (RcSet.new Nat) 5).1 0).1.table = [] := by decide

example : (WeakSet.insert (WeakSet.new Nat) 7).2 = 0 := by decide
example :
    (WeakSet.insert ((WeakSet.insert (WeakSet.new Nat) 7).1) 8).1.inner.slots =
      [WeakSetSlot.Used 7 1, WeakSetSlot.Used 8 1] := by decide
example :
    (WeakSet.releaseEntry (WeakSet.insert (WeakSet.new Nat) 7).1 0).inner.slots =
      [WeakSetSlot.Empty] := by decide
example :
    (WeakSet.iterRun (WeakSet.insert ((WeakSet.insert (WeakSet.new Nat) 7).1) 8).1).1 =
      [0, 1] := by decide

/-! ### List helper lemmas -/

theorem getD_set_self {α : Type} (l : List α) (i : Nat) (a d : α) (h : i < l.length) :
    (l.set i a).getD i d = a := by
  simp [List.getD_eq_getElem?_getD, List.getElem?_set_self h]

theorem getD_set_ne {α : Type} (l : List α) {i j : Nat} (hij : i ≠ j) (a d : α) :
    (l.set i a).getD j d = l.getD j d := by
  simp [List.getD_eq_getElem?_getD, List.getElem?_set_ne hij]

theorem getD_append_left {α : Type} (l l2 : List α) {j : Nat} (h : j < l.length) (d : α) :
    (l ++ l2).getD j d = l.getD j d := by
  simp [List.getD_eq_getElem?_getD, List.getElem?_append, h]

theorem getD_drop {α : Type} (l : List α) (start m : Nat) (d : α) :
    (l.drop start).getD m d = l.getD (start + m) d := by
  simp [List.getD_eq_getElem?_getD, List.getElem?_drop]

/-! ### Characterization of the free-slot scan -/

theorem scanIdx_some_spec {T : Type} (l : List (WeakSetSlot T)) :
    ∀ (i j : Nat), scanIdx l i = some j →
      i ≤ j ∧ j - i < l.length ∧
      isEmptySlot (l.getD (j - i) WeakSetSlot.Empty) = true ∧
      ∀ k, k < j - i → isEmptySlot (l.getD k WeakSetSlot.Empty) = false := by
  induction l with
  | nil => intro i j h; simp [scanIdx] at h
  | cons s rest ih =>
    intro i j h
    simp only [scanIdx] at h
    by_cases hs : isEmptySlot s
    · rw [if_pos hs] at h
      injection h with h
      subst h
      refine ⟨Nat.le_refl _, by simp, by simpa, ?_⟩
      intro k hk; omega
    · rw [if_neg hs] at h
      obtain ⟨h1, h2, h3, h4⟩ := ih (i + 1) j h
      refine ⟨by omega, by simp; omega, ?_, ?_⟩
      · have hji : j - i = (j - (i + 1)) + 1 := by omega
        rw [hji]
        simpa using h3
      · intro k hk
        cases k with
        | zero => simpa using (Bool.not_eq_true _ ▸ hs)
        | succ k' =>
          have hk' : k' < j - (i + 1) := by omega
          simpa using h4 k' hk'

theorem scanIdx_none_spec {T : Type} (l : List (WeakSetSlot T)) :
    ∀ (i : Nat), scanIdx l i = none →
      ∀ k, k < l.length → isEmptySlot (l.getD k WeakSetSlot.Empty) = false := by
  induction l with
  | nil => intro i _ k hk; simp at hk
  | cons s rest ih =>
    intro i h k hk
    simp only [scanIdx] at h
    by_cases hs : isEmptySlot s
    · rw [if_pos hs] at h; exact absurd h (by simp)
    · rw [if_neg hs] at h
      cases k with
      | zero => simpa using (Bool.not_eq_true _ ▸ hs)
      | succ k' =>
        have hk' : k' < rest.length := by simpa using hk
        simpa using ih (i + 1) h k' hk'

theorem scanFree_some_spec {T : Type} {slots : List (WeakSetSlot T)} {start j : Nat}
    (h : scanFree slots start = some j) :
    start ≤ j ∧ j < slots.length ∧
    isEmptySlot (slots.getD j WeakSetSlot.Empty) = true ∧
    ∀ k, start ≤ k → k < j → isEmptySlot (slots.getD k WeakSetSlot.Empty) = false := by
  obtain ⟨h1, h2, h3, h4⟩ := scanIdx_some_spec _ _ _ h
  rw [List.length_drop] at h2
  rw [getD_drop] at h3
  have hj : start + (j - start) = j := by omega
  rw [hj] at h3
  refine ⟨h1, by omega, h3, ?_⟩
  intro k hk1 hk2
  have hk' : k - start < j - start := by omega
  have := h4 (k - start) hk'
  rw [getD_drop] at this
  have hks : start + (k - start) = k := by omega
  rwa [hks] at this

theorem scanFree_none_spec {T : Type} {slots : List (WeakSetSlot T)} {start : Nat}
    (h : scanFree slots start = none) :
    ∀ k, start ≤ k → k < slots.length → isEmptySlot (slots.getD k WeakSetSlot.Empty) = false := by
  intro k hk1 hk2
  have hk' : k - start < (slots.drop start).length := by
    rw [List.length_drop]; omega
  have := scanIdx_none_spec _ _ h (k - start) hk'
  rw [getD_drop] at this
  have hks : start + (k - start) = k := by omega
  rwa [hks] at this

/-! ### Small facts about `getD` -/

theorem getD_oob {α : Type} (l : List α) {i : Nat} (h : l.length ≤ i) (d : α) :
    l.getD i d = d := by
  simp [List.getD_eq_getElem?_getD, List.getElem?_eq_none h]

theorem lt_length_of_getD_used {T : Type} {l : List (WeakSetSlot T)} {i : Nat}
    {v : T} {rc : Nat} (h : l.getD i WeakSetSlot.Empty = WeakSetSlot.Used v rc) :
    i < l.length := by
  by_contra hlt
  push_neg at hlt
  rw [getD_oob l hlt] at h
  exact absurd h (by simp)

/-! ### Effect of `make_entry` and `drop_entry` on the slot array -/

theorem make_entry_len {T : Type} (w : WSWorld T) (i : Nat) :
    (WeakSet.make_entry w i).2.inner.slots.length = w.inner.slots.length := by
  cases hgd : w.inner.slots.getD i WeakSetSlot.Empty with
  | Empty => simp only [WeakSet.make_entry, hgd]
  | Used v rc => simp only [WeakSet.make_entry, hgd, List.length_set]

theorem make_entry_ff {T : Type} (w : WSWorld T) (i : Nat) :
    (WeakSet.make_entry w i).2.inner.first_free = w.inner.first_free := by
  cases hgd : w.inner.slots.getD i WeakSetSlot.Empty with
  | Empty => simp only [WeakSet.make_entry, hgd]
  | Used v rc => simp only [WeakSet.make_entry, hgd, List.length_set]

theorem make_entry_valueOf {T : Type} (w : WSWorld T) (i j : Nat) :
    valueOf (slotAt (WeakSet.make_entry w i).2 j) = valueOf (slotAt w j) := by
  cases hgd : w.inner.slots.getD i WeakSetSlot.Empty with
  | Empty => simp only [WeakSet.make_entry, hgd]
  | Used v rc =>
      have hlen : i < w.inner.slots.length := lt_length_of_getD_used hgd
      by_cases hji : j = i
      · subst hji
        simp only [WeakSet.make_entry, hgd, slotAt]
        rw [getD_set_self _ _ _ _ hlen]
        rfl
      · simp only [WeakSet.make_entry, hgd, slotAt]
        rw [getD_set_ne _ (fun hh => hji hh.symm)]

theorem make_entry_status {T : Type} (w : WSWorld T) (i j : Nat) :
    isEmptySlot (slotAt (WeakSet.make_entry w i).2 j) = isEmptySlot (slotAt w j) := by
  cases hgd : w.inner.slots.getD i WeakSetSlot.Empty with
  | Empty => simp only [WeakSet.make_entry, hgd]
  | Used v rc =>
      have hlen : i < w.inner.slots.length := lt_length_of_getD_used hgd
      by_cases hji : j = i
      · subst hji
        simp only [WeakSet.make_entry, hgd, slotAt]
        rw [getD_set_self _ _ _ _ hlen]
        rfl
      · simp only [WeakSet.make_entry, hgd, slotAt]
        rw [getD_set_ne _ (fun hh => hji hh.symm)]

theorem releaseEntry_valueOf {T : Type} (w : WSWorld T) (i j : Nat) :
    valueOf (slotAt (WeakSet.releaseEntry w i) j) = valueOf (slotAt w j) ∨
      slotAt (WeakSet.releaseEntry w i) j = WeakSetSlot.Empty := by
  cases hgd : w.inner.slots.getD i WeakSetSlot.Empty with
  | Empty =>
      left
      simp only [WeakSet.releaseEntry, WeakSet.drop_entry, hgd]
      rfl
  | Used v rc =>
      have hlen : i < w.inner.slots.length := lt_length_of_getD_used hgd
      by_cases hrc : rc - 1 = 0
      · by_cases hji : j = i
        · subst hji
          right
          simp only [WeakSet.releaseEntry, WeakSet.drop_entry, hgd, if_pos hrc, slotAt]
          rw [getD_set_self _ _ _ _ hlen]
        · left
          simp only [WeakSet.releaseEntry, WeakSet.drop_entry, hgd, if_pos hrc, slotAt]
          rw [getD_set_ne _ (fun hh => hji hh.symm)]
      · left
        by_cases hji : j = i
        · subst hji
          simp only [WeakSet.releaseEntry, WeakSet.drop_entry, hgd, if_neg hrc, slotAt]
          rw [getD_set_self _ _ _ _ hlen]
          rfl
        · simp only [WeakSet.releaseEntry, WeakSet.drop_entry, hgd, if_neg hrc, slotAt]
          rw [getD_set_ne _ (fun hh => hji hh.symm)]

/-! ### Preservation of the refcount invariant -/

theorem inv_init {T : Type} : WeakSet.Inv (WeakSet.new T) := by
  refine ⟨?_, ?_, ?_⟩ <;> simp [WeakSet.new]

theorem inv_insert {T : Type} {w : WSWorld T} (hw : WeakSet.Inv w) (v : T) :
    WeakSet.Inv (WeakSet.insert w v).1 := by
  obtain ⟨h1, h2, h3⟩ := hw
  cases hscan : scanFree w.inner.slots w.inner.first_free with
  | some i =>
    obtain ⟨hsi, hilen, hiempty, hmin⟩ := scanFree_some_spec hscan
    have hslotE : w.inner.slots.getD i WeakSetSlot.Empty = WeakSetSlot.Empty := by
      cases hcase : w.inner.slots.getD i WeakSetSlot.Empty with
      | Empty => rfl
      | Used v' rc => rw [hcase] at hiempty; simp [isEmptySlot] at hiempty
    have hcount0 : w.handles.count i = 0 := by
      have h2i := h2 i hilen
      simp only [slotAt] at h2i
      rw [hslotE] at h2i
      simpa [refcountOf] using h2i.symm
    refine ⟨?_, ?_, ?_⟩ <;>
      simp only [WeakSet.insert, hscan, slotAt, List.length_set]
    · intro h hh
      rcases List.mem_cons.mp hh with rfl | hh2
      · exact hilen
      · exact h1 h hh2
    · intro j hj
      by_cases hji : j = i
      · subst hji
        rw [getD_set_self _ _ _ _ hilen, List.count_cons_self, hcount0]
        rfl
      · rw [getD_set_ne _ (fun hh => hji hh.symm), List.count_cons_of_ne hji]
        exact h2 j hj
    · intro j hj hne
      by_cases hji : j = i
      · subst hji
        rw [List.count_cons_self]
        omega
      · rw [List.count_cons_of_ne hji]
        rw [getD_set_ne _ (fun hh => hji hh.symm)] at hne
        exact h3 j hj hne
  | none =>
    have hfresh : w.inner.slots.length ∉ w.handles := fun hmem =>
      Nat.lt_irrefl _ (h1 _ hmem)
    have hcount0 : w.handles.count w.inner.slots.length = 0 :=
      List.count_eq_zero.mpr hfresh
    have hlen1 : w.inner.slots.length < (w.inner.slots ++ [WeakSetSlot.Empty]).length := by
      simp
    refine ⟨?_, ?_, ?_⟩ <;>
      simp only [WeakSet.insert, hscan, slotAt, List.length_set, List.length_append,
        List.length_singleton]
    · intro h hh
      rcases List.mem_cons.mp hh with rfl | hh2
      · omega
      · have := h1 h hh2
        omega
    · intro j hj
      by_cases hji : j = w.inner.slots.length
      · subst hji
        rw [getD_set_self _ _ _ _ hlen1, List.count_cons_self, hcount0]
        rfl
      · have hj' : j < w.inner.slots.length := by omega
        rw [getD_set_ne _ (fun hh => hji hh.symm), getD_append_left _ _ hj',
          List.count_cons_of_ne hji]
        exact h2 j hj'
    · intro j hj hne
      by_cases hji : j = w.inner.slots.length
      · subst hji
        rw [List.count_cons_self]
        omega
      · have hj' : j < w.inner.slots.length := by omega
        rw [List.count_cons_of_ne hji]
        rw [getD_set_ne _ (fun hh => hji hh.symm), getD_append_left _ _ hj'] at hne
        exact h3 j hj' hne

theorem inv_clone {T : Type} {w : WSWorld T} {i : Nat} (hw : WeakSet.Inv w)
    (hi : i ∈ w.handles) : WeakSet.Inv (WeakSet.make_entry w i).2 := by
  obtain ⟨h1, h2, h3⟩ := hw
  have hilen : i < w.inner.slots.length := h1 i hi
  have hcpos : 0 < w.handles.count i := List.count_pos_iff.mpr hi
  have h2i := h2 i hilen
  cases hgd : w.inner.slots.getD i WeakSetSlot.Empty with
  | Empty =>
      exfalso
      simp only [slotAt] at h2i
      rw [hgd] at h2i
      simp only [refcountOf] at h2i
      omega
  | Used v rc =>
      have hrc : rc = w.handles.count i := by
        simp only [slotAt] at h2i
        rw [hgd] at h2i
        simpa [refcountOf] using h2i
      refine ⟨?_, ?_, ?_⟩ <;>
        simp only [WeakSet.make_entry, hgd, slotAt, List.length_set]
      · intro h hh
        rcases List.mem_cons.mp hh with rfl | hh2
        · exact hilen
        · exact h1 h hh2
      · intro j hj
        by_cases hji : j = i
        · subst hji
          rw [getD_set_self _ _ _ _ hilen, List.count_cons_self, ← hrc]
          rfl
        · rw [getD_set_ne _ (fun hh => hji hh.symm), List.count_cons_of_ne hji]
          exact h2 j hj
      · intro j hj hne
        by_cases hji : j = i
        · subst hji
          rw [List.count_cons_self]
          omega
        · rw [List.count_cons_of_ne hji]
          rw [getD_set_ne _ (fun hh => hji hh.symm)] at hne
          exact h3 j hj hne

theorem inv_release {T : Type} {w : WSWorld T} {i : Nat} (hw : WeakSet.Inv w)
    (hi : i ∈ w.handles) : WeakSet.Inv (WeakSet.releaseEntry w i) := by
  obtain ⟨h1, h2, h3⟩ := hw
  have hilen : i < w.inner.slots.length := h1 i hi
  have hcpos : 0 < w.handles.count i := List.count_pos_iff.mpr hi
  have h2i := h2 i hilen
  cases hgd : w.inner.slots.getD i WeakSetSlot.Empty with
  | Empty =>
      exfalso
      simp only [slotAt] at h2i
      rw [hgd] at h2i
      simp only [refcountOf] at h2i
      omega
  | Used v rc =>
      have hrc : rc = w.handles.count i := by
        simp only [slotAt] at h2i
        rw [hgd] at h2i
        simpa [refcountOf] using h2i
      by_cases hz : rc - 1 = 0
      · refine ⟨?_, ?_, ?_⟩ <;>
          simp only [WeakSet.releaseEntry, WeakSet.drop_entry, hgd, if_pos hz, slotAt,
            List.length_set]
        · intro h hh
          exact h1 h (List.mem_of_mem_erase hh)
        · intro j hj
          by_cases hji : j = i
          · subst hji
            rw [getD_set_self _ _ _ _ hilen, List.count_erase_self]
            simp only [refcountOf]
            omega
          · rw [getD_set_ne _ (fun hh => hji hh.symm), List.count_erase_of_ne hji]
            exact h2 j hj
        · intro j hj hne
          by_cases hji : j = i
          · subst hji
            rw [getD_set_self _ _ _ _ hilen] at hne
            simp [isEmptySlot] at hne
          · rw [List.count_erase_of_ne hji]
            rw [getD_set_ne _ (fun hh => hji hh.symm)] at hne
            exact h3 j hj hne
      · refine ⟨?_, ?_, ?_⟩ <;>
          simp only [WeakSet.releaseEntry, WeakSet.drop_entry, hgd, if_neg hz, slotAt,
            List.length_set]
        · intro h hh
          exact h1 h (List.mem_of_mem_erase hh)
        · intro j hj
          by_cases hji : j = i
          · subst hji
            rw [getD_set_self _ _ _ _ hilen, List.count_erase_self]
            simp only [refcountOf]
            omega
          · rw [getD_set_ne _ (fun hh => hji hh.symm), List.count_erase_of_ne hji]
            exact h2 j hj
        · intro j hj hne
          by_cases hji : j = i
          · subst hji
            rw [List.count_erase_self]
            omega
          · rw [List.count_erase_of_ne hji]
            rw [getD_set_ne _ (fun hh => hji hh.symm)] at hne
            exact h3 j hj hne

/-! ### Preservation of the free-hint invariant -/

theorem freeinv_init {T : Type} : WeakSet.FreeInv (WeakSet.new T) := by
  refine ⟨?_, ?_⟩ <;> simp [WeakSet.new, WeakSet.FreeInv]

theorem freeinv_insert {T : Type} {w : WSWorld T} (hw : WeakSet.FreeInv w) (v : T) :
    WeakSet.FreeInv (WeakSet.insert w v).1 := by
  obtain ⟨hf1, hf2⟩ := hw
  cases hscan : scanFree w.inner.slots w.inner.first_free with
  | some i =>
    obtain ⟨hsi, hilen, hiempty, hmin⟩ := scanFree_some_spec hscan
    refine ⟨?_, ?_⟩ <;> simp only [WeakSet.insert, hscan, slotAt, List.length_set]
    · omega
    · intro j hj
      by_cases hji : j = i
      · subst hji
        rw [getD_set_self _ _ _ _ hilen]
        rfl
      · have hj' : j < i := by omega
        rw [getD_set_ne _ (fun hh => hji hh.symm)]
        by_cases hjf : j < w.inner.first_free
        · exact hf2 j hjf
        · push_neg at hjf
          exact hmin j hjf hj'
  | none =>
    have hnone := scanFree_none_spec hscan
    have hlen1 : w.inner.slots.length < (w.inner.slots ++ [WeakSetSlot.Empty]).length := by
      simp
    refine ⟨?_, ?_⟩ <;>
      simp only [WeakSet.insert, hscan, slotAt, List.length_set, List.length_append,
        List.length_singleton]
    · omega
    · intro j hj
      by_cases hji : j = w.inner.slots.length
      · subst hji
        rw [getD_set_self _ _ _ _ hlen1]
        rfl
      · have hj' : j < w.inner.slots.length := by omega
        rw [getD_set_ne _ (fun hh => hji hh.symm), getD_append_left _ _ hj']
        by_cases hjf : j < w.inner.first_free
        · exact hf2 j hjf
        · push_neg at hjf
          exact hnone j hjf hj'

theorem freeinv_clone {T : Type} (w : WSWorld T) (i : Nat) (hw : WeakSet.FreeInv w) :
    WeakSet.FreeInv (WeakSet.make_entry w i).2 := by
  obtain ⟨hf1, hf2⟩ := hw
  refine ⟨?_, ?_⟩
  · rw [make_entry_ff, make_entry_len]
    exact hf1
  · intro j hj
    rw [make_entry_ff] at hj
    rw [make_entry_status]
    exact hf2 j hj

theorem freeinv_release {T : Type} {w : WSWorld T} (i : Nat) (hw : WeakSet.FreeInv w) :
    WeakSet.FreeInv (WeakSet.releaseEntry w i) := by
  obtain ⟨hf1, hf2⟩ := hw
  cases hgd : w.inner.slots.getD i WeakSetSlot.Empty with
  | Empty =>
      refine ⟨?_, ?_⟩ <;> simp only [WeakSet.releaseEntry, WeakSet.drop_entry, hgd]
      · exact hf1
      · intro j hj
        exact hf2 j hj
  | Used v rc =>
      have hilen : i < w.inner.slots.length := lt_length_of_getD_used hgd
      by_cases hz : rc - 1 = 0
      · by_cases hif : i < w.inner.first_free
        · refine ⟨?_, ?_⟩ <;>
            simp only [WeakSet.releaseEntry, WeakSet.drop_entry, hgd, if_pos hz,
              if_pos hif, slotAt, List.length_set]
          · omega
          · intro j hj
            rw [getD_set_ne _ (by omega)]
            exact hf2 j (by omega)
        · refine ⟨?_, ?_⟩ <;>
            simp only [WeakSet.releaseEntry, WeakSet.drop_entry, hgd, if_pos hz,
              if_neg hif, slotAt, List.length_set]
          · exact hf1
          · intro j hj
            rw [getD_set_ne _ (by omega)]
            exact hf2 j hj
      · refine ⟨?_, ?_⟩ <;>
          simp only [WeakSet.releaseEntry, WeakSet.drop_entry, hgd, if_neg hz, slotAt,
            List.length_set]
        · exact hf1
        · intro j hj
          by_cases hji : j = i
          · subst hji
            rw [getD_set_self _ _ _ _ hilen]
            rfl
          · rw [getD_set_ne _ (fun hh => hji hh.symm)]
            exact hf2 j hj

theorem reachable_inv {T : Type} {w : WSWorld T}
    (h : WeakSet.Reachable w) : WeakSet.Inv w := by
  induction h with
  | init => exact inv_init
  | insert_step v _ ih => exact inv_insert ih v
  | clone_step _ hi ih => exact inv_clone ih hi
  | release_step _ hi ih => exact inv_release ih hi

/-- C1: in every world reachable by any sequence of `insert`, handle clone,
and handle release, every live handle's index is in range, the refcount
stored in each slot equals exactly the number of live handles pointing at
that slot, and an `Occupied` (`Used`) slot never has refcount zero. -/
theorem weakset_refcount_invariant {T : Type} {w : WSWorld T}
    (h : WeakSet.Reachable w) : WeakSet.Inv w :=
  reachable_inv h

theorem weakset_refcount_invariant_witness :
    WeakSet.Inv (WeakSet.insert (WeakSet.new Nat) 7).1 :=
  weakset_refcount_invariant (WeakSet.Reachable.insert_step 7 WeakSet.Reachable.init)

theorem reachable_freeinv {T : Type} {w : WSWorld T}
    (h : WeakSet.Reachable w) : WeakSet.FreeInv w := by
  induction h with
  | init => exact freeinv_init
  | insert_step v _ ih => exact freeinv_insert ih v
  | clone_step _ _ ih => exact freeinv_clone _ _ ih
  | release_step _ _ ih => exact freeinv_release _ ih

/-- C10: in every world reachable by any sequence of `insert`, clone, and
release, every slot strictly below `first_free` is `Used` and `first_free`
never exceeds the slot-array length. -/
theorem weakset_free_hint_invariant {T : Type} {w : WSWorld T}
    (h : WeakSet.Reachable w) : WeakSet.FreeInv w :=
  reachable_freeinv h

theorem weakset_free_hint_invariant_witness :
    WeakSet.FreeInv (WeakSet.releaseEntry (WeakSet.insert (WeakSet.new Nat) 3).1 0) :=
  weakset_free_hint_invariant
    (WeakSet.Reachable.release_step (WeakSet.Reachable.insert_step 3 WeakSet.Reachable.init)
      (by decide))

/-! ### The insert postcondition (claim C6) and handle pairing (claim C3) -/

theorem insert_slot_self {T : Type} (w : WSWorld T) (v : T) :
    slotAt (WeakSet.insert w v).1 (WeakSet.insert w v).2 = WeakSetSlot.Used v 1 := by
  cases hscan : scanFree w.inner.slots w.inner.first_free with
  | some i =>
      obtain ⟨_, hilen, _, _⟩ := scanFree_some_spec hscan
      simp only [WeakSet.insert, hscan, slotAt]
      exact getD_set_self _ _ _ _ hilen
  | none =>
      have hlen1 : w.inner.slots.length < (w.inner.slots ++ [WeakSetSlot.Empty]).length := by
        simp
      simp only [WeakSet.insert, hscan, slotAt]
      exact getD_set_self _ _ _ _ hlen1

/-- C6: `insert` scans the slot array starting at the free-slot hint for an
`Empty` slot, appends a new slot when none is found before the end, sets
the chosen slot to `Used(v, 1)`, advances the hint to the chosen index plus
one, and returns a (fresh, live) handle to that index whose slot has
refcount 1. -/
theorem weakset_insert_spec {T : Type} {w : WSWorld T}
    (hr : WeakSet.Reachable w) (v : T) : WeakSet.InsertSpec w v := by
  have hff := (reachable_freeinv hr).1
  cases hscan : scanFree w.inner.slots w.inner.first_free with
  | some i =>
      obtain ⟨hsi, hilen, hiempty, hmin⟩ := scanFree_some_spec hscan
      have hemp : slotAt w i = WeakSetSlot.Empty := by
        cases hcase : w.inner.slots.getD i WeakSetSlot.Empty with
        | Empty => exact hcase
        | Used v' rc => rw [hcase] at hiempty; simp [isEmptySlot] at hiempty
      refine ⟨?_, ?_, ?_, ?_, ?_, insert_slot_self w v, ?_, ?_⟩ <;>
        simp only [WeakSet.insert, hscan]
      · exact hsi
      · intro j hj hf
        exact hmin j hf hj
      · intro _
        exact ⟨hemp, by simp [List.length_set]⟩
      · intro hhi
        omega
      · omega
  | none =>
      have hnone := scanFree_none_spec hscan
      refine ⟨?_, ?_, ?_, ?_, ?_, insert_slot_self w v, ?_, ?_⟩ <;>
        simp only [WeakSet.insert, hscan]
      · exact hff
      · intro j hj hf
        exact hnone j hf hj
      · intro hhi
        omega
      · intro _
        simp [List.length_set]
      · exact Nat.le_refl _

theorem weakset_insert_spec_witness : WeakSet.InsertSpec (WeakSet.new Nat) 5 :=
  weakset_insert_spec WeakSet.Reachable.init 5

theorem make_entry_fst_of_used {T : Type} {w : WSWorld T} {i : Nat} {v : T} {rc : Nat}
    (hs : slotAt w i = WeakSetSlot.Used v rc) :
    (WeakSet.make_entry w i).1 = some i := by
  have hs' : w.inner.slots.getD i WeakSetSlot.Empty = WeakSetSlot.Used v rc := hs
  simp only [WeakSet.make_entry, hs']

theorem make_entry_snd_of_used {T : Type} {w : WSWorld T} {i : Nat} {v : T} {rc : Nat}
    (hs : slotAt w i = WeakSetSlot.Used v rc) :
    (WeakSet.make_entry w i).2 =
      { inner := { slots := w.inner.slots.set i (WeakSetSlot.Used v (rc + 1)),
                   first_free := w.inner.first_free },
        handles := i :: w.handles } := by
  have hs' : w.inner.slots.getD i WeakSetSlot.Empty = WeakSetSlot.Used v rc := hs
  simp only [WeakSet.make_entry, hs']

theorem releaseEntry_of_used_gt1 {T : Type} {w : WSWorld T} {i : Nat} {v : T} {rc : Nat}
    (hs : slotAt w i = WeakSetSlot.Used v rc) (hrc : rc - 1 ≠ 0) :
    WeakSet.releaseEntry w i =
      { inner := { slots := w.inner.slots.set i (WeakSetSlot.Used v (rc - 1)),
                   first_free := w.inner.first_free },
        handles := w.handles.erase i } := by
  have hs' : w.inner.slots.getD i WeakSetSlot.Empty = WeakSetSlot.Used v rc := hs
  simp only [WeakSet.releaseEntry, WeakSet.drop_entry, hs', if_neg hrc]

theorem releaseEntry_of_used_last {T : Type} {w : WSWorld T} {i : Nat} {v : T} {rc : Nat}
    (hs : slotAt w i = WeakSetSlot.Used v rc) (hrc : rc - 1 = 0) :
    WeakSet.releaseEntry w i =
      { inner := { slots := w.inner.slots.set i WeakSetSlot.Empty,
                   first_free := if i < w.inner.first_free then i
                                 else w.inner.first_free },
        handles := w.handles.erase i } := by
  have hs' : w.inner.slots.getD i WeakSetSlot.Empty = WeakSetSlot.Used v rc := hs
  simp only [WeakSet.releaseEntry, WeakSet.drop_entry, hs', if_pos hrc]

/-- C3: for the handle `h` returned by `insert w v` (slot refcount 1),
cloning it succeeds, leaving the slot at refcount 2; releasing exactly one
of the two handles leaves the slot `Used(v, 1)` — still occupied with the
value unchanged — and releasing the other as well sets the slot to `Empty`,
destroying the value. -/
theorem weakset_clone_release_pair {T : Type} (w : WSWorld T) (v : T)
    {w1 : WSWorld T} {h : Nat} (hins : WeakSet.insert w v = (w1, h)) :
    (WeakSet.make_entry w1 h).1 = some h ∧
    slotAt (WeakSet.make_entry w1 h).2 h = WeakSetSlot.Used v 2 ∧
    slotAt (WeakSet.releaseEntry (WeakSet.make_entry w1 h).2 h) h = WeakSetSlot.Used v 1 ∧
    slotAt (WeakSet.releaseEntry
      (WeakSet.releaseEntry (WeakSet.make_entry w1 h).2 h) h) h = WeakSetSlot.Empty := by
  have hs : slotAt w1 h = WeakSetSlot.Used v 1 := by
    have hbase := insert_slot_self w v
    rw [hins] at hbase
    exact hbase
  have hlen : h < w1.inner.slots.length := lt_length_of_getD_used hs
  have h2 : slotAt (WeakSet.make_entry w1 h).2 h = WeakSetSlot.Used v 2 := by
    rw [make_entry_snd_of_used hs]
    show (w1.inner.slots.set h (WeakSetSlot.Used v (1 + 1))).getD h WeakSetSlot.Empty = _
    rw [getD_set_self _ _ _ _ hlen]
  have hlen2 : h < (WeakSet.make_entry w1 h).2.inner.slots.length := by
    rw [make_entry_len]
    exact hlen
  have h3 : slotAt (WeakSet.releaseEntry (WeakSet.make_entry w1 h).2 h) h =
      WeakSetSlot.Used v 1 := by
    rw [releaseEntry_of_used_gt1 h2 (by omega)]
    show ((WeakSet.make_entry w1 h).2.inner.slots.set h
        (WeakSetSlot.Used v (2 - 1))).getD h WeakSetSlot.Empty = _
    rw [getD_set_self _ _ _ _ hlen2]
  have hlen3 : h < (WeakSet.releaseEntry (WeakSet.make_entry w1 h).2 h).inner.slots.length := by
    rw [releaseEntry_of_used_gt1 h2 (by omega)]
    simpa [List.length_set] using hlen2
  have h4 : slotAt (WeakSet.releaseEntry
      (WeakSet.releaseEntry (WeakSet.make_entry w1 h).2 h) h) h = WeakSetSlot.Empty := by
    rw [releaseEntry_of_used_last h3 (by omega)]
    show ((WeakSet.releaseEntry (WeakSet.make_entry w1 h).2 h).inner.slots.set h
        WeakSetSlot.Empty).getD h WeakSetSlot.Empty = _
    rw [getD_set_self _ _ _ _ hlen3]
  exact ⟨make_entry_fst_of_used hs, h2, h3, h4⟩

theorem weakset_clone_release_pair_witness :
    (WeakSet.make_entry ((WeakSet.insert (WeakSet.new Nat) 9).1) 0).1 = some 0 ∧
    slotAt (WeakSet.make_entry ((WeakSet.insert (WeakSet.new Nat) 9).1) 0).2 0 =
      WeakSetSlot.Used 9 2 ∧
    slotAt (WeakSet.releaseEntry
      (WeakSet.make_entry ((WeakSet.insert (WeakSet.new Nat) 9).1) 0).2 0) 0 =
      WeakSetSlot.Used 9 1 ∧
    slotAt (WeakSet.releaseEntry (WeakSet.releaseEntry
      (WeakSet.make_entry ((WeakSet.insert (WeakSet.new Nat) 9).1) 0).2 0) 0) 0 =
      WeakSetSlot.Empty :=
  weakset_clone_release_pair (WeakSet.new Nat) 9 (by decide)

/-- C8: for every live handle of a reachable world, `WeakSetInner::slot`
and `WeakSetInner::slot_mut` (the lookups unwrapped by
`WeakSetEntry::borrow` and `borrow_mut`) find the slot `Used` and return
the stored value: the `None` (empty-slot) branch is unreachable. -/
theorem weakset_borrow_total {T : Type} {w : WSWorld T} {i : Nat}
    (hr : WeakSet.Reachable w) (hi : i ∈ w.handles) :
    ∃ v, w.inner.slot i = some v ∧ w.inner.slot_mut i = some v := by
  obtain ⟨h1, h2, h3⟩ := reachable_inv hr
  have hilen : i < w.inner.slots.length := h1 i hi
  have hcpos : 0 < w.handles.count i := List.count_pos_iff.mpr hi
  have h2i := h2 i hilen
  cases hgd : w.inner.slots.getD i WeakSetSlot.Empty with
  | Empty =>
      exfalso
      simp only [slotAt] at h2i
      rw [hgd] at h2i
      simp only [refcountOf] at h2i
      omega
  | Used v rc =>
      exact ⟨v, by simp only [WeakSetInner.slot, hgd],
        by simp only [WeakSetInner.slot_mut, hgd]⟩

theorem weakset_borrow_total_witness :
    ∃ v, (WeakSet.insert (WeakSet.new Nat) 7).1.inner.slot 0 = some v ∧
      (WeakSet.insert (WeakSet.new Nat) 7).1.inner.slot_mut 0 = some v :=
  weakset_borrow_total (WeakSet.Reachable.insert_step 7 WeakSet.Reachable.init) (by decide)

/-! ### Iteration yield count (claim C2) -/

theorem iterGo_length {T : Type} :
    ∀ (fuel : Nat) (w : WSWorld T) (idx : Nat),
      (WeakSet.iterGo fuel w idx).1.length =
        (List.range' idx fuel).countP (fun j => !isEmptySlot (slotAt w j)) := by
  intro fuel
  induction fuel with
  | zero => intro w idx; simp [WeakSet.iterGo]
  | succ fuel ih =>
    intro w idx
    rw [List.range'_succ, List.countP_cons]
    cases hgd : w.inner.slots.getD idx WeakSetSlot.Empty with
    | Empty =>
        have hme : WeakSet.make_entry w idx = (none, w) := by
          simp only [WeakSet.make_entry, hgd]
        have hp : (!isEmptySlot (slotAt w idx)) = false := by
          have hsl : slotAt w idx = WeakSetSlot.Empty := hgd
          rw [hsl]
          rfl
        simp only [WeakSet.iterGo, hme, hp]
        rw [ih w (idx + 1)]
        simp
    | Used v rc =>
        have hme : WeakSet.make_entry w idx = (some idx,
            { inner := { slots := w.inner.slots.set idx (WeakSetSlot.Used v (rc + 1)),
                         first_free := w.inner.first_free },
              handles := idx :: w.handles }) := by
          simp only [WeakSet.make_entry, hgd]
        have hstat : ∀ j,
            isEmptySlot (slotAt
              ({ inner := { slots := w.inner.slots.set idx (WeakSetSlot.Used v (rc + 1)),
                            first_free := w.inner.first_free },
                 handles := idx :: w.handles } : WSWorld T) j) =
            isEmptySlot (slotAt w j) := by
          intro j
          have hst := make_entry_status w idx j
          rw [hme] at hst
          exact hst
        have hp : (!isEmptySlot (slotAt w idx)) = true := by
          have hsl : slotAt w idx = WeakSetSlot.Used v rc := hgd
          rw [hsl]
          rfl
        simp only [WeakSet.iterGo, hme, hp, List.length_cons]
        rw [ih _ (idx + 1)]
        rw [List.countP_congr (fun x _ => by rw [hstat x])]
        simp

/-- C2: for every reachable world, a full uninterrupted run of `iter()`
yields exactly as many handles as there are slots whose live-handle count
is currently greater than zero. -/
theorem weakset_iterate_count {T : Type} {w : WSWorld T} (hr : WeakSet.Reachable w) :
    (WeakSet.iterRun w).1.length =
      (List.range w.inner.slots.length).countP
        (fun i => decide (0 < w.handles.count i)) := by
  obtain ⟨h1, h2, h3⟩ := reachable_inv hr
  show (WeakSet.iterGo w.inner.slots.length w 0).1.length = _
  rw [iterGo_length, List.range_eq_range']
  apply List.countP_congr
  intro i hi
  have hilen : i < w.inner.slots.length := by
    rw [List.mem_range'] at hi
    obtain ⟨k, hk, rfl⟩ := hi
    omega
  have h2i := h2 i hilen
  have h3i := h3 i hilen
  cases hcase : w.inner.slots.getD i WeakSetSlot.Empty with
  | Empty =>
      have hc : w.handles.count i = 0 := by
        simp only [slotAt] at h2i
        rw [hcase] at h2i
        simpa [refcountOf] using h2i.symm
      have hsl : slotAt w i = WeakSetSlot.Empty := hcase
      rw [hsl, hc]
      simp [isEmptySlot]
  | Used v rc =>
      have hc : 0 < w.handles.count i := by
        apply h3i
        simp only [slotAt]
        rw [hcase]
        rfl
      have hsl : slotAt w i = WeakSetSlot.Used v rc := hcase
      rw [hsl]
      simp [isEmptySlot, hc]

theorem weakset_iterate_count_witness :
    (WeakSet.iterRun (WeakSet.releaseEntry
        (WeakSet.insert (WeakSet.insert (WeakSet.new Nat) 1).1 2).1 0)).1.length =
      (List.range (WeakSet.releaseEntry
          (WeakSet.insert (WeakSet.insert (WeakSet.new Nat) 1).1 2).1 0).inner.slots.length).countP
        (fun i => decide (0 < (WeakSet.releaseEntry
          (WeakSet.insert (WeakSet.insert (WeakSet.new Nat) 1).1 2).1 0).handles.count i)) :=
  weakset_iterate_count
    (WeakSet.Reachable.release_step
      (WeakSet.Reachable.insert_step 2 (WeakSet.Reachable.insert_step 1 WeakSet.Reachable.init))
      (by decide))

/-! ### Iteration snapshot (claim C7) -/

/-- The snapshot guarantee that survives: for an in-flight iteration over
`w0` (bound `max_idx` captured once at call time as `w0`'s slot count),
provided no insertion is interleaved (`insAllowed = false`; insertions
through clones of the set are possible in the program and void this
guarantee, see the C7 theorem below): (1) every slot still holds its
snapshot-time value unless a release emptied it; (2) every yielded handle
points below the snapshot bound at a slot that held exactly the yielded
value at snapshot time (so slots freed before their visit are skipped and
yield nothing); (3) when no release interleaves either
(`relAllowed = false`), iterating alone changes or destroys no value —
each yielded handle holds its own reference and visits only ever increment
refcounts. -/
theorem weakset_iteration_snapshot {T : Type} {b : Bool} {w0 : WSWorld T}
    {st : WeakSet.IterSt T} (h : WeakSet.IterReach false b w0 st) :
    (∀ i, valueOf (slotAt st.w i) = valueOf (slotAt w0 i) ∨
       valueOf (slotAt st.w i) = none) ∧
    (∀ p ∈ st.yields, p.1 < w0.inner.slots.length ∧
       valueOf (slotAt w0 p.1) = some p.2) ∧
    (b = false → ∀ i, valueOf (slotAt st.w i) = valueOf (slotAt w0 i)) := by
  induction h with
  | start => exact ⟨fun i => Or.inl rfl, by simp, fun _ i => rfl⟩
  | @step st st' hreach hstep ih =>
      obtain ⟨ihA, ihY, ihB⟩ := ih
      cases hstep with
      | @visit_used v rc hc hs =>
          refine ⟨?_, ?_, ?_⟩
          · intro i
            rw [make_entry_valueOf]
            exact ihA i
          · intro p hp
            rcases List.mem_append.mp hp with hp1 | hp2
            · exact ihY p hp1
            · have hpv : p = (st.cursor, v) := by simpa using hp2
              subst hpv
              refine ⟨hc, ?_⟩
              have hv : valueOf (slotAt st.w st.cursor) = some v := by rw [hs]; rfl
              rcases ihA st.cursor with he | he
              · rw [← he]
                exact hv
              · rw [hv] at he
                cases he
          · intro hb i
            rw [make_entry_valueOf]
            exact ihB hb i
      | @visit_empty hc hs =>
          exact ⟨ihA, ihY, ihB⟩
      | @release i hb hi =>
          refine ⟨?_, ihY, ?_⟩
          · intro j
            rcases releaseEntry_valueOf st.w i j with he | he
            · rw [he]
              exact ihA j
            · right
              rw [he]
              rfl
          · intro hbf
            rw [hbf] at hb
            cases hb
      | @insert_clone v hb =>
          cases hb

theorem weakset_iteration_snapshot_witness :
    (∀ i, valueOf (slotAt (WeakSet.make_entry (WeakSet.insert (WeakSet.new Nat) 7).1 0).2 i) =
        valueOf (slotAt (WeakSet.insert (WeakSet.new Nat) 7).1 i) ∨
      valueOf (slotAt (WeakSet.make_entry (WeakSet.insert (WeakSet.new Nat) 7).1 0).2 i) =
        none) ∧
    (∀ p ∈ [((0 : Nat), (7 : Nat))],
      p.1 < (WeakSet.insert (WeakSet.new Nat) 7).1.inner.slots.length ∧
      valueOf (slotAt (WeakSet.insert (WeakSet.new Nat) 7).1 p.1) = some p.2) ∧
    (false = false →
      ∀ i, valueOf (slotAt (WeakSet.make_entry (WeakSet.insert (WeakSet.new Nat) 7).1 0).2 i) =
        valueOf (slotAt (WeakSet.insert (WeakSet.new Nat) 7).1 i)) :=
  weakset_iteration_snapshot
    (WeakSet.IterReach.step WeakSet.IterReach.start
      (@WeakSet.IterStep.visit_used Nat false false
        ((WeakSet.insert (WeakSet.new Nat) 7).1.inner.slots.length)
        { w := (WeakSet.insert (WeakSet.new Nat) 7).1, cursor := 0, yields := [] }
        7 1 (by decide) (by decide)))

/-- C7: the claimed snapshot guarantee — "a value inserted after the
snapshot is captured is never yielded by that in-flight iteration" — fails
on the code, although the source documents it as the purpose of `insert`'s
`&mut self` ("no new items can be inserted (hence insert takes &mut
self)", lib.rs `iter`): `Clone for WeakSet` is public and a clone shares
`inner`, and `iter()` holds no `RefCell` borrow between visits, so a
mid-iteration `insert` through a clone compiles and runs.  Concretely:
insert 1 and 2, release the first handle (slot 0 `Empty`, hint rewound),
call `iter()` (snapshot `max_idx = 2`), insert 3 through a clone — the
scan recycles slot 0, below the bound — and the iterator's next visit
yields the post-snapshot value 3, which at snapshot time was in no slot
(slot 0 was `Empty`). -/
theorem weakset_iteration_insert_bug :
    WeakSet.IterReach true true iterBugW0 iterBugSt ∧
    (0, 3) ∈ iterBugSt.yields ∧
    iterBugW0.inner.slots.length = 2 ∧
    (WeakSet.insert iterBugW0 3).2 = 0 ∧
    slotAt iterBugW0 0 = WeakSetSlot.Empty ∧
    (∀ i < iterBugW0.inner.slots.length, valueOf (slotAt iterBugW0 i) ≠ some 3) := by
  refine ⟨?_, by decide, by decide, by decide, by decide, by decide⟩
  exact WeakSet.IterReach.step
    (WeakSet.IterReach.step WeakSet.IterReach.start
      (WeakSet.IterStep.insert_clone 3 rfl))
    (@WeakSet.IterStep.visit_used Nat true true
      (iterBugW0.inner.slots.length)
      { w := (WeakSet.insert iterBugW0 3).1, cursor := 0, yields := [] }
      3 1 (by decide) (by decide))

/-! ### Diagnostic rendering is pure (claim C9) -/

/-- C9: rendering the diagnostic/debug view leaves the entire collection
state unchanged — every slot (value and refcount), the live-handle
multiset, the free hint, and (for the identity-table collection) every
table entry are identical after rendering, so no subsequently observable
reference count is affected.  The last conjunct replays the spec's
scenario: insert two values, render twice, release the first handle —
exactly one occupied slot remains. -/
theorem weakset_debug_render_pure {T : Type} (fmtv : T → String) (a b : T)
    (w : WSWorld T) (q : RcWorld T) :
    (debugFmt fmtv w).2 = w ∧
    (∀ i, slotAt (debugFmt fmtv w).2 i = slotAt w i) ∧
    (debugFmt fmtv w).2.handles = w.handles ∧
    (debugFmt fmtv w).2.inner.first_free = w.inner.first_free ∧
    (rcDebugFmt q).2 = q ∧
    countUsedSlots
      (WeakSet.releaseEntry
        (debugFmt fmtv (debugFmt fmtv
          (WeakSet.insert (WeakSet.insert (WeakSet.new T) a).1 b).1).2).2
        (WeakSet.insert (WeakSet.new T) a).2) = 1 :=
  ⟨rfl, fun _ => rfl, rfl, rfl, rfl, rfl⟩

/-! ### The identity-table entry invariant (claims C4 and C5) -/

theorem rcitems_inv {T : Type} {w : RcWorld T} (h : RcSet.RcReachItems w) :
    RcItemsInv w := by
  induction h with
  | init => refine ⟨?_, ?_, ?_, ?_, ?_⟩ <;> simp [RcSet.new]
  | @insert_step w v _ ih =>
    obtain ⟨hnd, htb, hib, hrc, hiff⟩ := ih
    have hin : (RcSet.insert w v).1 =
        { values := w.values ++ [v], table := w.values.length :: w.table,
          items := w.values.length :: w.items, rcs := w.rcs } := rfl
    rw [hin]
    refine ⟨?_, ?_, ?_, ?_, ?_⟩ <;> dsimp only
    · rw [List.nodup_cons]
      exact ⟨fun hmem => Nat.lt_irrefl _ (htb _ hmem), hnd⟩
    · intro x hx
      rcases List.mem_cons.mp hx with rfl | hx2
      · simp
      · have := htb x hx2
        simp
        omega
    · intro x hx
      rcases List.mem_cons.mp hx with rfl | hx2
      · simp
      · have := hib x hx2
        simp
        omega
    · exact hrc
    · intro x
      by_cases hav : x = w.values.length
      · subst hav
        rw [List.count_cons_self]
        simp
      · rw [List.count_cons_of_ne hav]
        constructor
        · intro hx
          rcases List.mem_cons.mp hx with h' | h'
          · exact absurd h' hav
          · exact (hiff x).mp h'
        · intro hc
          exact List.mem_cons_of_mem _ ((hiff x).mpr hc)
  | @clone_step w a _ hmem ih =>
    obtain ⟨hnd, htb, hib, hrc, hiff⟩ := ih
    refine ⟨hnd, htb, ?_, hrc, ?_⟩ <;> dsimp only [RcSet.cloneItem]
    · intro x hx
      rcases List.mem_cons.mp hx with rfl | hx2
      · exact hib x hmem
      · exact hib x hx2
    · intro x
      by_cases hxa : x = a
      · subst hxa
        have hc : 0 < w.items.count x := List.count_pos_iff.mpr hmem
        rw [List.count_cons_self]
        constructor
        · intro _
          omega
        · intro _
          exact (hiff x).mpr hc
      · rw [List.count_cons_of_ne hxa]
        exact hiff x
  | @drop_step w a _ hmem ih =>
    obtain ⟨hnd, htb, hib, hrc, hiff⟩ := ih
    have hcnt : 0 < w.items.count a := List.count_pos_iff.mpr hmem
    have hstrong : strongCount w a = w.items.count a := by
      simp [strongCount, hrc]
    by_cases hle : strongCount w a ≤ 1
    · have hdi : (RcSet.drop_item w a).1 =
          { values := w.values, table := w.table.erase a,
            items := w.items.erase a, rcs := w.rcs } := by
        simp only [RcSet.drop_item, if_pos hle]
      rw [hdi]
      refine ⟨?_, ?_, ?_, ?_, ?_⟩ <;> dsimp only
      · exact hnd.erase a
      · intro x hx
        exact htb x (List.mem_of_mem_erase hx)
      · intro x hx
        exact hib x (List.mem_of_mem_erase hx)
      · exact hrc
      · intro x
        by_cases hxa : x = a
        · subst hxa
          rw [List.count_erase_self]
          constructor
          · intro hx
            rw [hnd.mem_erase_iff] at hx
            exact absurd rfl hx.1
          · intro hc
            omega
        · rw [List.count_erase_of_ne hxa, List.mem_erase_of_ne hxa]
          exact hiff x
    · have hgt : 1 < w.items.count a := by omega
      have hdi : (RcSet.drop_item w a).1 =
          { values := w.values, table := w.table,
            items := w.items.erase a, rcs := w.rcs } := by
        simp only [RcSet.drop_item, if_neg hle]
      rw [hdi]
      refine ⟨hnd, htb, ?_, hrc, ?_⟩ <;> dsimp only
      · intro x hx
        exact hib x (List.mem_of_mem_erase hx)
      · intro x
        by_cases hxa : x = a
        · subst hxa
          rw [List.count_erase_self]
          constructor
          · intro _
            omega
          · intro _
            exact (hiff x).mpr (by omega)
        · rw [List.count_erase_of_ne hxa]
          exact hiff x

/-- C5 (counterexample): the entry-iff-live-strong-reference invariant
fails once `iterate` is involved.  Insert one value, run `iter()` (which
yields a plain strong `Rc`), drop the `Item` (two strong references are
live at that point, so `drop_item` keeps the entry), then drop the
iteration `Rc` (a plain `Rc` release, which destroys the value without
consulting the table): the reachable result still has the address in the
table although no strong reference issued through the collection remains. -/
theorem rcset_entry_invariant_counterexample :
    RcSet.RcReach rcC5World ∧ 0 ∈ rcC5World.table ∧ strongCount rcC5World 0 = 0 ∧
    ¬ (0 ∈ rcC5World.table ↔ 0 < strongCount rcC5World 0) := by
  refine ⟨?_, by decide, by decide, by decide⟩
  exact RcSet.RcReach.rc_drop_step
    (RcSet.RcReach.drop_step
      (RcSet.RcReach.iterate_step (RcSet.RcReach.insert_step 5 RcSet.RcReach.init))
      (by decide))
    (by decide)

/-- C5 (amended): restricted to the interface that releases every strong
reference through an `Item` (insert, `Item` clone, `Item` release — no
iteration-yielded references outstanding), the invariant holds: a table
entry for an address exists if and only if at least one live `Item` for it
remains, and the entry is removed at the moment the last one drops. -/
theorem rcset_entry_iff_items {T : Type} {w : RcWorld T}
    (h : RcSet.RcReachItems w) : ∀ a, a ∈ w.table ↔ 0 < w.items.count a :=
  (rcitems_inv h).2.2.2.2

theorem rcset_entry_iff_items_witness :
    0 ∈ (RcSet.insert (RcSet.new Nat) 5).1.table ↔
      0 < (RcSet.insert (RcSet.new Nat) 5).1.items.count 0 :=
  rcset_entry_iff_items (RcSet.RcReachItems.insert_step 5 RcSet.RcReachItems.init) 0

/-- C4 (counterexample): in `drop_item`, when no other strong reference
remains, the code drops the `Rc` — destroying the value — strictly before
removing the table entry: the event trace of a concrete release is
`[destroy, remove]`, so the claimed remove-before-destroy order is false. -/
theorem rcset_untrack_order_counterexample :
    (RcSet.drop_item (RcSet.insert (RcSet.new Nat) 5).1 0).2 =
      [RcEvent.destroy 0, RcEvent.remove 0] ∧
    ¬ (List.indexOf (RcEvent.remove 0)
         (RcSet.drop_item (RcSet.insert (RcSet.new Nat) 5).1 0).2 <
       List.indexOf (RcEvent.destroy 0)
         (RcSet.drop_item (RcSet.insert (RcSet.new Nat) 5).1 0).2) := by
  decide

/-- C4 (amended): when an `Item` is released and its strong count shows no
other strong reference remains, `drop_item` releases the strong reference
(destroying the value) first and removes the table entry immediately
afterwards, within the same operation: the event order is
`[destroy, remove]`, and by the time `drop_item` returns the table no
longer contains the entry. -/
theorem rcset_release_then_untrack {T : Type} {w : RcWorld T} {a : Nat}
    (hnd : w.table.Nodup) (hlast : strongCount w a ≤ 1) :
    (RcSet.drop_item w a).2 = [RcEvent.destroy a, RcEvent.remove a] ∧
    a ∉ (RcSet.drop_item w a).1.table := by
  have hdi1 : (RcSet.drop_item w a).1 =
      { values := w.values, table := w.table.erase a,
        items := w.items.erase a, rcs := w.rcs } := by
    simp only [RcSet.drop_item, if_pos hlast]
  have hdi2 : (RcSet.drop_item w a).2 = [RcEvent.destroy a, RcEvent.remove a] := by
    simp only [RcSet.drop_item, if_pos hlast]
  refine ⟨hdi2, ?_⟩
  rw [hdi1]
  dsimp only
  intro hmem
  rw [hnd.mem_erase_iff] at hmem
  exact hmem.1 rfl

theorem rcset_release_then_untrack_witness :
    (RcSet.drop_item (RcSet.insert (RcSet.new Nat) 6).1 0).2 =
      [RcEvent.destroy 0, RcEvent.remove 0] ∧
    0 ∉ (RcSet.drop_item (RcSet.insert (RcSet.new Nat) 6).1 0).1.table :=
  rcset_release_then_untrack (by decide) (by decide)
